import Mathlib

/-!
# Verification of the `accumulator` repository (src/lib.rs, src/utils.rs)

Shallow embedding of the append-only hash accumulator.  The authoritative
source is `src/lib.rs` (it declares only `mod utils;`; `src/simple.rs` is an
undeclared duplicate module that is not compiled).

Modelling conventions:
* a 32-byte digest (`Output<D>`, a `GenericArray<u8, U32>`) is a `List Nat`;
  the all-zero digest is `List.replicate 32 0`;
* the hash parameter `D` is an arbitrary function `List Nat → Digest`; the
  incremental `chain` calls concatenate their inputs, so
  `get_digest().chain(a).chain(b).chain(c).finalize()` is `H (a ++ b ++ c)`;
* `U256` values are `Nat`.  `ethers_core::types::U256` (the `uint` crate)
  panics on arithmetic underflow, so `a - b` is modelled by `u256Sub`
  returning `Option Nat` (`none` = panic); bitwise NOT and AND are 256-bit
  operations, modelled by the structurally recursive `notF 256` / `landF 256`
  so that every definition evaluates by kernel reduction;
* a Rust function that can panic returns `PRes`, whose `panicked` constructor
  marks an `assert!` failure or an arithmetic underflow;
* the recursive `prove_from` / `verify` functions are written with an explicit
  fuel argument (structural recursion); the public wrappers pass fuel `i + 1`,
  which is sufficient because every recursive call strictly decreases `i`
  (fuel-irrelevance is proved below);
* `BTreeMap<U256, _>` is an association list `List (Nat × Digest)` with
  `mapGet` / `mapInsert` (insert replaces an existing binding).
-/

namespace Accum

/-- A digest: the byte string produced by the 32-byte hash. -/
abbrev Digest := List Nat

/-- The all-zero digest, `Default::default()` for `GenericArray<u8, U32>`. -/
def zeroDigest : Digest := List.replicate 32 0

/-- The hash parameter: `get_digest().chain(..)...finalize()` on the
concatenation of the chained byte strings. -/
abbrev Hash := List Nat → Digest

/-- Fuelled 256-bit bitwise AND (one bit per fuel step), so that it
reduces in the kernel.  `landF 256 a b` is `a & b` on `U256` values. -/
def landF : Nat → Nat → Nat → Nat
  | 0, _, _ => 0
  | f + 1, a, b =>
      (if a % 2 = 1 ∧ b % 2 = 1 then 1 else 0) + 2 * landF f (a / 2) (b / 2)

/-- Fuelled 256-bit bitwise NOT.  `notF 256 a` is `!a` on `U256`. -/
def notF : Nat → Nat → Nat
  | 0, _ => 0
  | f + 1, a => (if a % 2 = 1 then 0 else 1) + 2 * notF f (a / 2)

/-- Model of `U256` bitwise NOT. -/
def u256Not (a : Nat) : Nat := notF 256 a

/-- Model of `U256` subtraction; the `uint` crate panics (`none`) on underflow. -/
def u256Sub (a b : Nat) : Option Nat := if b ≤ a then some (a - b) else none

/-- Trailing-zero count with explicit fuel (`f ≥ n` suffices for `n ≥ 1`). -/
def tzFuel : Nat → Nat → Nat
  | 0, _ => 0
  | f + 1, n => if n % 2 = 1 then 0 else tzFuel f (n / 2) + 1

/-- Trailing-zero count of a positive number (pure version, enough fuel). -/
def tzF (n : Nat) : Nat := tzFuel n n

/-- Model of `U256::trailing_zeros`: the `uint` crate returns the full width 256 on
input 0 (never reached by the accumulator, which guards `i.is_zero()`). -/
def trailing_zeros (n : Nat) : Nat := if n = 0 then 256 else tzF n

/-- Model of `utils::highest_divisor_power_of_2`, that is `n & (!(n - 1))`.  The subtraction
`n - 1` underflows (panics) for `n = 0`, hence the `Option`. -/
def highest_divisor_power_of_2 (n : Nat) : Option Nat :=
  (u256Sub n 1).map (fun m => landF 256 n (u256Not m))

/-- The value of `highest_divisor_power_of_2 n` on the non-panicking branch
(`n ≥ 1`): `n & !(n-1)`. -/
def lowbitCode (n : Nat) : Nat := landF 256 n (u256Not (n - 1))

/-- Model of `utils::pred`, that is `n - highest_divisor_power_of_2(n)` (panics for `n = 0`). -/
def pred (n : Nat) : Option Nat :=
  (highest_divisor_power_of_2 n).bind (fun l => u256Sub n l)

/-- The value of `pred n` on the non-panicking branch. -/
def predCode (n : Nat) : Nat := n - lowbitCode n

/-- Mathematical predecessor `n - 2^(trailing zeros of n)`; used only as the
ghost recursion index for the specification function `roots` (it agrees with
`predCode` on `1 ≤ n < 2^256`, see `predCode_eq_predP`). -/
def predP (n : Nat) : Nat := n - 2 ^ tzF n

/-- The `ProverError` enum from src/lib.rs. -/
inductive ProverError where
  | missingHistory : Nat → ProverError
  | outOfBounds : ProverError
  | witnessTooShort : ProverError
  | riMismatch : ProverError
  | xiMismatch : ProverError
  deriving DecidableEq

/-- Result of a Rust call that may return, error, or panic. -/
inductive PRes (α : Type) where
  | ok : α → PRes α
  | err : ProverError → PRes α
  | panicked : PRes α
  deriving DecidableEq

/-- The `SimpleAccumulator` struct from src/lib.rs: a `U256` length counter and a fixed
256-slot state array (`GenericArray<Output<D>, U256>`). -/
structure SimpleAccumulator where
  k : Nat
  s : List Digest
  deriving DecidableEq

/-- Model of `SimpleAccumulator::default()`: zero length, 256 zero digests. -/
def SimpleAccumulator.default : SimpleAccumulator :=
  ⟨0, List.replicate 256 zeroDigest⟩

/-- Model of `Accumulator::get_state`: the zero digest at index 0, otherwise the state
slot at bit position `trailing_zeros i` (`None` past the end of the slice). -/
def get_state (a : SimpleAccumulator) (i : Nat) : Option Digest :=
  if i = 0 then some zeroDigest else a.s.get? (trailing_zeros i)

/-- Model of `SimpleAccumulator::set_state_at`: overwrite slot `trailing_zeros i`. -/
def set_state_at (a : SimpleAccumulator) (i : Nat) (e : Digest) :
    SimpleAccumulator :=
  ⟨a.k, a.s.set (trailing_zeros i) e⟩

/-- Model of `SimpleAccumulator::insert` (src/lib.rs lines 131-143): increment `k`,
read `prev = get_state(k - 1)` and `pred = get_state(k - lowbit(k))` from the
*new* `k`, hash `element ‖ prev ‖ pred`, store the result at slot
`trailing_zeros k` and return it.

The two `.unwrap()` calls are modelled with `.getD zeroDigest`; the lemma
`insert_unwraps_ok` proves the defaults are unreachable whenever the state
slice has its 256 slots and `k + 1 < 2^256`, so the model agrees with the
source on every state the program can reach.  The call
`highest_divisor_power_of_2(self.k)` has `self.k = k + 1 ≥ 1`, so its
panicking branch is structurally unreachable and `lowbitCode` is used. -/
def SimpleAccumulator.insert (H : Hash) (a : SimpleAccumulator) (x : Digest) :
    SimpleAccumulator × Digest :=
  let k' := a.k + 1
  let prev := (get_state ⟨k', a.s⟩ (k' - 1)).getD zeroDigest
  let pd := (get_state ⟨k', a.s⟩ (k' - lowbitCode k')).getD zeroDigest
  let r := H (x ++ prev ++ pd)
  (set_state_at ⟨k', a.s⟩ k' r, r)

/-- Model of `Accumulator::len`. -/
def SimpleAccumulator.len (a : SimpleAccumulator) : Nat := a.k

/-- Model of `Accumulator::is_empty`: emptiness of the backing state slice. -/
def is_empty (a : SimpleAccumulator) : Bool := a.s.isEmpty

/-- Model of `Accumulator::get_root`, that is `get_state(len())`. -/
def get_root (a : SimpleAccumulator) : Option Digest := get_state a a.k

/-- Association-list lookup, modelling `BTreeMap::get`. -/
def mapGet : List (Nat × Digest) → Nat → Option Digest
  | [], _ => none
  | (a, b) :: t, key => if key = a then some b else mapGet t key

/-- Association-list insert, modelling `BTreeMap::insert` (replaces an
existing binding for the key). -/
def mapInsert : List (Nat × Digest) → Nat → Digest → List (Nat × Digest)
  | [], key, v => [(key, v)]
  | (a, b) :: t, key, v =>
      if key = a then (key, v) :: t else (a, b) :: mapInsert t key v

/-- The `SimpleProver` struct from src/lib.rs: the accumulator plus the full history
maps index → element and index → root. -/
structure SimpleProver where
  accumulator : SimpleAccumulator
  elements : List (Nat × Digest)
  r : List (Nat × Digest)
  deriving DecidableEq

/-- Model of `SimpleProver::default()`: default accumulator, `X[0] = R[0] = 0`. -/
def SimpleProver.default : SimpleProver :=
  ⟨SimpleAccumulator.default, [(0, zeroDigest)], [(0, zeroDigest)]⟩

/-- Model of `Accumulator::len` for the prover. -/
def SimpleProver.len (P : SimpleProver) : Nat := P.accumulator.k

/-- Model of `Accumulator::state_len` for the prover: the length of the backing state
slice returned by `state()`. -/
def state_len (P : SimpleProver) : Nat := P.accumulator.s.length

/-- Model of `SimpleProver::insert`: insert into the accumulator, then record the
element and the new root under the new length. -/
def SimpleProver.insert (H : Hash) (P : SimpleProver) (x : Digest) :
    SimpleProver × Digest :=
  let res := P.accumulator.insert H x
  (⟨res.1, mapInsert P.elements res.1.k x, mapInsert P.r res.1.k res.2⟩,
    res.2)

/-- Build an accumulator by inserting the elements of `xs` in order. -/
def runAccumulator (H : Hash) (xs : List Digest) : SimpleAccumulator :=
  xs.foldl (fun a x => (a.insert H x).1) SimpleAccumulator.default

/-- Build a prover holding the full history of `xs`, inserted in order. -/
def runProver (H : Hash) (xs : List Digest) : SimpleProver :=
  xs.foldl (fun P x => (P.insert H x).1) SimpleProver.default

/-- Model of `SimpleProver::prove_from` with explicit fuel (src/lib.rs 214-249).
Checks `j > i` (OutOfBounds), computes `utils::pred(i)` (panics iff `i = 0`),
looks up `X[i]`, `R[i-1]`, `R[pred i]` in that order (MissingHistory on the
first absent one), emits the triple, and if `i > j` recurses on
`(pred i, j)` when `pred i ≥ j`, else on `(i - 1, j)`, appending the
recursive witness.  Errors and panics propagate (`?`). -/
def prove_fromF (fuel : Nat) (P : SimpleProver) (i j : Nat) :
    PRes (List Digest) :=
  match fuel with
  | 0 => .panicked
  | fuel + 1 =>
    if j > i then .err .outOfBounds
    else
      match pred i with
      | none => .panicked
      | some pred_i =>
        match mapGet P.elements i with
        | none => .err (.missingHistory i)
        | some elements_i =>
          match mapGet P.r (i - 1) with
          | none => .err (.missingHistory (i - 1))
          | some prev =>
            match mapGet P.r pred_i with
            | none => .err (.missingHistory pred_i)
            | some pd =>
              if i > j then
                match
                  (if pred_i ≥ j then prove_fromF fuel P pred_i j
                   else prove_fromF fuel P (i - 1) j) with
                | .ok w => .ok ([elements_i, prev, pd] ++ w)
                | .err e => .err e
                | .panicked => .panicked
              else .ok [elements_i, prev, pd]

/-- Model of `SimpleProver::prove_from`.  Fuel `i + 1` always suffices: every
recursive call strictly decreases `i` (see `prove_fromF_fuel_irrel`). -/
def prove_from (P : SimpleProver) (i j : Nat) : PRes (List Digest) :=
  prove_fromF (i + 1) P i j

/-- Model of `Prover::prove`, that is `prove_from(state_len(), j)`. -/
def prove (P : SimpleProver) (j : Nat) : PRes (List Digest) :=
  prove_from P (state_len P) j

/-- Model of `SimpleProver::verify` with explicit fuel (src/lib.rs 251-281).
`assert!(j <= i)` is a panic; a witness with fewer than 3 entries at the
current level is WitnessTooShort; the head triple must hash to the claimed
root (RiMismatch); at `i = j` the element is compared (XiMismatch); otherwise
the verifier recurses along the same branch the prover chose.  When the
`pred` branch is reached, `i > j ≥ 0` forces `i ≥ 1`, so `utils::pred(i)`
cannot panic there and `predCode` is used. -/
def verifyF (fuel : Nat) (H : Hash) (r_i : Digest) (i j : Nat)
    (witness : List Digest) (element : Digest) : PRes Unit :=
  match fuel with
  | 0 => .panicked
  | fuel + 1 =>
    if i < j then .panicked
    else
      match witness with
      | x_i :: r_prev :: r_pred :: rest =>
        if H (x_i ++ r_prev ++ r_pred) ≠ r_i then .err .riMismatch
        else if i = j then
          (if x_i = element then .ok () else .err .xiMismatch)
        else if predCode i ≥ j then
          verifyF fuel H r_pred (predCode i) j rest element
        else
          verifyF fuel H r_prev (i - 1) j rest element
      | _ => .err .witnessTooShort

/-- Model of `SimpleProver::verify`.  Fuel `i + 1` always suffices (each recursive
call strictly decreases `i`, see `verifyF_fuel_irrel`). -/
def verify (H : Hash) (r_i : Digest) (i j : Nat) (witness : List Digest)
    (element : Digest) : PRes Unit :=
  verifyF (i + 1) H r_i i j witness element

/-- Ghost specification function: the root after `n` inserts of the prefix of
`xs` (`r_0` is the zero digest, `r_{n+1} = H(x_{n+1} ‖ r_n ‖ r_{pred(n+1)})`).
Uses the mathematical `predP` so that the recursion terminates for every `n`;
it agrees with the code path on all reachable indices. -/
def roots (H : Hash) (xs : List Digest) : Nat → Digest
  | 0 => zeroDigest
  | n + 1 =>
      H (xs.getD n zeroDigest ++ roots H xs n ++ roots H xs (predP (n + 1)))
  decreasing_by
    all_goals try simp only [predP]
    all_goals first
      | omega
      | exact Nat.sub_lt (Nat.succ_pos _) (Nat.two_pow_pos _)

/-- Population count with explicit fuel. -/
def popcountF : Nat → Nat → Nat
  | 0, _ => 0
  | f + 1, n => n % 2 + popcountF f (n / 2)

/-- Number of set bits of `n` (`f = n` is enough fuel). -/
def popcount (n : Nat) : Nat := popcountF n n

/-- Floor of the base-2 logarithm, with fuel (structural, kernel-reducible). -/
def log2F : Nat → Nat → Nat
  | 0, _ => 0
  | f + 1, n => if 2 ≤ n then log2F f (n / 2) + 1 else 0

/-- Floor of log2 of n (0 at 0). -/
def flog2 (n : Nat) : Nat := log2F n n

/-- The witness length of a successful `prove_from` result. -/
def witnessLengthOf : PRes (List Digest) → Option Nat
  | .ok w => some w.length
  | _ => none

/-- Concrete hash used to instantiate witnesses: the constant zero digest
(the theorems hold for every hash parameter). -/
def H0 : Hash := fun _ => zeroDigest

/-- A concrete nonzero 32-byte element for witnesses. -/
def d1 : Digest := List.replicate 32 1

/-- A concrete eight-element history (the smallest history on which the
witness-length bound of the specification fails at `i = 8, j = 1`). -/
def c8xs : List Digest := List.replicate 8 d1

/-- A hand-built prover state whose root map lacks index 0 but has index 1,
while the element map has index 2 (exercises the third MissingHistory
lookup of `prove_from`). -/
def P6a : SimpleProver :=
  ⟨SimpleAccumulator.default, [(2, d1)], [(1, zeroDigest)]⟩

/-- A hand-built prover state whose element map has index 1 but whose root
map is empty (exercises the second MissingHistory lookup of
`prove_from`). -/
def P6b : SimpleProver := ⟨SimpleAccumulator.default, [(1, d1)], []⟩

end Accum

/-! ## Bit-level lemmas for the 256-bit helpers -/

namespace Accum

theorem landF_testBit (f : Nat) :
    ∀ a b p, Nat.testBit (landF f a b) p =
      (decide (p < f) && (Nat.testBit a p && Nat.testBit b p)) := by
  induction f with
  | zero => intro a b p; simp [landF, Nat.zero_testBit]
  | succ f ih =>
    intro a b p
    cases p with
    | zero =>
      simp only [landF, Nat.testBit_zero]
      by_cases ha : a % 2 = 1 <;> by_cases hb : b % 2 = 1 <;>
        simp [ha, hb] <;> omega
    | succ p =>
      have h2 : ((if a % 2 = 1 ∧ b % 2 = 1 then 1 else 0) +
          2 * landF f (a / 2) (b / 2)) / 2 = landF f (a / 2) (b / 2) := by
        split <;> omega
      rw [landF, Nat.testBit_succ, h2, ih, Nat.testBit_succ, Nat.testBit_succ,
        show decide (p + 1 < f + 1) = decide (p < f) from
          decide_eq_decide.mpr (by omega)]

theorem notF_testBit (f : Nat) :
    ∀ a p, Nat.testBit (notF f a) p = (decide (p < f) && !(Nat.testBit a p)) := by
  induction f with
  | zero => intro a p; simp [notF, Nat.zero_testBit]
  | succ f ih =>
    intro a p
    cases p with
    | zero =>
      simp only [notF, Nat.testBit_zero]
      by_cases ha : a % 2 = 1 <;> simp [ha] <;> omega
    | succ p =>
      have h2 : ((if a % 2 = 1 then 0 else 1) + 2 * notF f (a / 2)) / 2 =
          notF f (a / 2) := by
        split <;> omega
      rw [notF, Nat.testBit_succ, h2, ih, Nat.testBit_succ,
        show decide (p + 1 < f + 1) = decide (p < f) from
          decide_eq_decide.mpr (by omega)]

theorem landF_le_left (f : Nat) : ∀ a b, landF f a b ≤ a := by
  induction f with
  | zero => intro a b; simp [landF]
  | succ f ih =>
    intro a b
    have h := ih (a / 2) (b / 2)
    have h2 : a % 2 + 2 * (a / 2) = a := Nat.mod_add_div a 2
    simp only [landF]
    split <;> omega

theorem tzFuel_eq (n : Nat) :
    1 ≤ n → ∀ f g, n ≤ f → n ≤ g → tzFuel f n = tzFuel g n := by
  induction n using Nat.strong_induction_on with
  | _ n ih =>
    intro hn f g hf hg
    obtain ⟨f', rfl⟩ : ∃ f', f = f' + 1 := ⟨f - 1, by omega⟩
    obtain ⟨g', rfl⟩ : ∃ g', g = g' + 1 := ⟨g - 1, by omega⟩
    simp only [tzFuel]
    by_cases hodd : n % 2 = 1
    · simp [hodd]
    · rw [if_neg hodd, if_neg hodd,
        ih (n / 2) (by omega) (by omega) f' g' (by omega) (by omega)]

theorem tzF_odd {n : Nat} (h : n % 2 = 1) : tzF n = 0 := by
  obtain ⟨m, rfl⟩ : ∃ m, n = m + 1 := ⟨n - 1, by omega⟩
  simp [tzF, tzFuel, h]

theorem tzF_even {n : Nat} (h2 : 2 ≤ n) (h : n % 2 = 0) :
    tzF n = tzF (n / 2) + 1 := by
  obtain ⟨m, rfl⟩ : ∃ m, n = m + 1 := ⟨n - 1, by omega⟩
  show tzFuel (m + 1) (m + 1) = tzF ((m + 1) / 2) + 1
  rw [tzFuel, if_neg (by omega)]
  congr 1
  exact tzFuel_eq ((m + 1) / 2) (by omega) m ((m + 1) / 2) (by omega)
    (by omega)

theorem tzF_decomp (n : Nat) :
    1 ≤ n → ∃ m, n = 2 ^ tzF n * m ∧ m % 2 = 1 := by
  induction n using Nat.strong_induction_on with
  | _ n ih =>
    intro hn
    by_cases hodd : n % 2 = 1
    · exact ⟨n, by simp [tzF_odd hodd], hodd⟩
    · have h2 : 2 ≤ n := by omega
      obtain ⟨m, hm, hmo⟩ := ih (n / 2) (by omega) (by omega)
      refine ⟨m, ?_, hmo⟩
      rw [tzF_even h2 (by omega), pow_succ]
      calc n = 2 * (n / 2) := by omega
        _ = 2 * (2 ^ tzF (n / 2) * m) := by rw [← hm]
        _ = 2 ^ tzF (n / 2) * 2 * m := by ring

theorem two_pow_tzF_dvd (n : Nat) (hn : 1 ≤ n) : 2 ^ tzF n ∣ n := by
  obtain ⟨m, hm, _⟩ := tzF_decomp n hn
  exact ⟨m, hm⟩

theorem two_pow_tzF_le (n : Nat) (hn : 1 ≤ n) : 2 ^ tzF n ≤ n :=
  Nat.le_of_dvd (by omega) (two_pow_tzF_dvd n hn)

theorem tzF_lt_of_lt_pow {n s : Nat} (hn : 1 ≤ n) (h : n < 2 ^ s) :
    tzF n < s :=
  (Nat.pow_lt_pow_iff_right (by norm_num)).1
    (lt_of_le_of_lt (two_pow_tzF_le n hn) h)

theorem not_two_pow_tzF_succ_dvd (n : Nat) (hn : 1 ≤ n) :
    ¬ 2 ^ (tzF n + 1) ∣ n := by
  obtain ⟨m, hm, hmo⟩ := tzF_decomp n hn
  rintro ⟨q, hq⟩
  have hpos : 0 < 2 ^ tzF n := Nat.two_pow_pos _
  have hmq : m = 2 * q := by
    apply Nat.eq_of_mul_eq_mul_left hpos
    calc 2 ^ tzF n * m = n := hm.symm
      _ = 2 ^ (tzF n + 1) * q := hq
      _ = 2 ^ tzF n * (2 * q) := by rw [pow_succ]; ring
  omega

theorem le_tzF_of_two_pow_dvd {n e : Nat} (hn : 1 ≤ n) (h : 2 ^ e ∣ n) :
    e ≤ tzF n := by
  by_contra hlt
  push_neg at hlt
  exact not_two_pow_tzF_succ_dvd n hn
    (dvd_trans (pow_dvd_pow 2 (by omega)) h)

theorem tzF_unique {n e : Nat} (hn : 1 ≤ n) (h1 : 2 ^ e ∣ n)
    (h2 : ¬ 2 ^ (e + 1) ∣ n) : tzF n = e := by
  have hle := le_tzF_of_two_pow_dvd hn h1
  by_contra hne
  exact h2 (dvd_trans (pow_dvd_pow 2 (by omega)) (two_pow_tzF_dvd n hn))

theorem tzF_add_eq {a d e : Nat} (ha : 2 ^ e ∣ a) (hd : 1 ≤ d)
    (hlt : tzF d < e) : tzF (a + d) = tzF d := by
  apply tzF_unique (by omega)
  · exact Dvd.dvd.add (dvd_trans (pow_dvd_pow 2 (le_of_lt hlt)) ha)
      (two_pow_tzF_dvd d hd)
  · intro hdvd
    have h2 : 2 ^ (tzF d + 1) ∣ a := dvd_trans (pow_dvd_pow 2 (by omega)) ha
    have h3 : 2 ^ (tzF d + 1) ∣ d := by
      have := Nat.dvd_sub' hdvd h2
      simpa using this
    exact not_two_pow_tzF_succ_dvd d hd h3

theorem div_pow_of_decomp {n t m p : Nat} (hm : n = 2 ^ t * m) (hpt : p ≤ t) :
    n / 2 ^ p = 2 ^ (t - p) * m := by
  subst hm
  rw [show (2 : Nat) ^ t = 2 ^ p * 2 ^ (t - p) by
    rw [← pow_add]; congr 1; omega]
  rw [mul_assoc, Nat.mul_div_cancel_left _ (Nat.two_pow_pos p)]

theorem testBit_tzF_self (n : Nat) (hn : 1 ≤ n) :
    Nat.testBit n (tzF n) = true := by
  obtain ⟨m, hm, hmo⟩ := tzF_decomp n hn
  rw [Nat.testBit_to_div_mod, div_pow_of_decomp hm (le_refl _)]
  simp [hmo]

theorem testBit_of_lt_tzF {n p : Nat} (hn : 1 ≤ n) (hp : p < tzF n) :
    Nat.testBit n p = false := by
  obtain ⟨m, hm, hmo⟩ := tzF_decomp n hn
  rw [Nat.testBit_to_div_mod, div_pow_of_decomp hm (by omega)]
  obtain ⟨u, hu⟩ : ∃ u, tzF n - p = u + 1 := ⟨tzF n - p - 1, by omega⟩
  have h2 : 2 ^ (tzF n - p) * m = 2 * (2 ^ u * m) := by
    rw [hu, pow_succ]; ring
  rw [h2]
  simp [Nat.mul_mod_right]

theorem sub_one_div_pow {n p : Nat} (hn : 1 ≤ n) (hd : 2 ^ p ∣ n) :
    (n - 1) / 2 ^ p = n / 2 ^ p - 1 := by
  obtain ⟨a, rfl⟩ := hd
  have hp := Nat.two_pow_pos p
  have ha : 1 ≤ a := by
    rcases Nat.eq_zero_or_pos a with h | h
    · subst h; simp at hn
    · exact h
  obtain ⟨a', rfl⟩ : ∃ a', a = a' + 1 := ⟨a - 1, by omega⟩
  have key : 2 ^ p * (a' + 1) - 1 = (2 ^ p - 1) + 2 ^ p * a' := by
    have : 2 ^ p * (a' + 1) = 2 ^ p * a' + 2 ^ p := by ring
    omega
  rw [key, Nat.add_mul_div_left _ _ hp, Nat.div_eq_of_lt (by omega),
    Nat.mul_div_cancel_left _ hp]
  omega

theorem testBit_pred_of_lt_tzF {n p : Nat} (hn : 1 ≤ n) (hp : p < tzF n) :
    Nat.testBit (n - 1) p = true := by
  obtain ⟨m, hm, hmo⟩ := tzF_decomp n hn
  have hd : 2 ^ p ∣ n := dvd_trans (pow_dvd_pow 2 (by omega))
    (two_pow_tzF_dvd n hn)
  rw [Nat.testBit_to_div_mod, sub_one_div_pow hn hd,
    div_pow_of_decomp hm (by omega)]
  obtain ⟨u, hu⟩ : ∃ u, tzF n - p = u + 1 := ⟨tzF n - p - 1, by omega⟩
  have h2 : 2 ^ (tzF n - p) * m = 2 * (2 ^ u * m) := by
    rw [hu, pow_succ]; ring
  have h3 : 1 ≤ 2 ^ u * m :=
    Nat.mul_pos (Nat.two_pow_pos _) (by omega)
  rw [h2]
  have h4 : 2 * (2 ^ u * m) - 1 = 2 * (2 ^ u * m - 1) + 1 := by omega
  rw [h4]
  simp [Nat.mul_add_mod]

theorem testBit_pred_tzF_self (n : Nat) (hn : 1 ≤ n) :
    Nat.testBit (n - 1) (tzF n) = false := by
  obtain ⟨m, hm, hmo⟩ := tzF_decomp n hn
  rw [Nat.testBit_to_div_mod, sub_one_div_pow hn (two_pow_tzF_dvd n hn),
    div_pow_of_decomp hm (le_refl _)]
  simp; omega

theorem odd_div_pow {m s : Nat} (hm : m % 2 = 1) (hs : 1 ≤ s) :
    (m - 1) / 2 ^ s = m / 2 ^ s := by
  obtain ⟨u, rfl⟩ : ∃ u, s = u + 1 := ⟨s - 1, by omega⟩
  rw [pow_succ', ← Nat.div_div_eq_div_mul, ← Nat.div_div_eq_div_mul]
  congr 1
  omega

theorem testBit_pred_of_tzF_lt {n p : Nat} (hn : 1 ≤ n) (hp : tzF n < p) :
    Nat.testBit (n - 1) p = Nat.testBit n p := by
  obtain ⟨m, hm, hmo⟩ := tzF_decomp n hn
  have hsplit : (2 : Nat) ^ p = 2 ^ tzF n * 2 ^ (p - tzF n) := by
    rw [← pow_add]; congr 1; omega
  have h2 : n / 2 ^ tzF n = m := by
    rw [div_pow_of_decomp hm (le_refl _)]; simp
  have h1 : (n - 1) / 2 ^ tzF n = m - 1 := by
    rw [sub_one_div_pow hn (two_pow_tzF_dvd n hn), h2]
  have key : (n - 1) / 2 ^ p = n / 2 ^ p := by
    rw [hsplit, ← Nat.div_div_eq_div_mul, ← Nat.div_div_eq_div_mul, h1, h2]
    exact odd_div_pow hmo (by omega)
  rw [Nat.testBit_to_div_mod, Nat.testBit_to_div_mod, key]

theorem testBit_of_lt {n p : Nat} (h : n < 2 ^ p) : Nat.testBit n p = false := by
  rw [Nat.testBit_to_div_mod, Nat.div_eq_of_lt h]
  simp

theorem testBit_two_pow (t p : Nat) :
    Nat.testBit (2 ^ t) p = decide (p = t) := by
  rcases Nat.lt_trichotomy p t with h | h | h
  · rw [Nat.testBit_to_div_mod,
      div_pow_of_decomp (show 2 ^ t = 2 ^ t * 1 by ring) (by omega)]
    obtain ⟨u, hu⟩ : ∃ u, t - p = u + 1 := ⟨t - p - 1, by omega⟩
    have h2 : 2 ^ (t - p) * 1 = 2 * 2 ^ u := by rw [hu, pow_succ]; ring
    rw [h2]
    simp [Nat.mul_mod_right, show p ≠ t by omega]
  · subst h
    rw [Nat.testBit_to_div_mod, Nat.div_self (Nat.two_pow_pos p)]
    simp
  · rw [testBit_of_lt ((Nat.pow_lt_pow_iff_right (by norm_num)).2 h)]
    simp; omega

theorem lowbitCode_eq {n : Nat} (h1 : 1 ≤ n) (h2 : n < 2 ^ 256) :
    lowbitCode n = 2 ^ tzF n := by
  have ht : tzF n < 256 := tzF_lt_of_lt_pow h1 h2
  apply Nat.eq_of_testBit_eq
  intro p
  rw [lowbitCode, u256Not, landF_testBit, notF_testBit, testBit_two_pow]
  rcases Nat.lt_trichotomy p (tzF n) with h | h | h
  · rw [testBit_of_lt_tzF h1 h]
    simp; omega
  · subst h
    rw [testBit_tzF_self n h1, testBit_pred_tzF_self n h1]
    simp [ht]
  · by_cases hp : p < 256
    · rw [testBit_pred_of_tzF_lt h1 h]
      cases hb : Nat.testBit n p <;> simp [hb, hp] <;> omega
    · rw [testBit_of_lt (lt_of_lt_of_le h2 (Nat.pow_le_pow_right (by norm_num)
        (by omega)))]
      simp; omega

theorem lowbitCode_le (n : Nat) : lowbitCode n ≤ n := landF_le_left 256 n _

theorem lowbitCode_pos {n : Nat} (h1 : 1 ≤ n) (h2 : n < 2 ^ 256) :
    1 ≤ lowbitCode n := by
  rw [lowbitCode_eq h1 h2]; exact Nat.one_le_two_pow

theorem lowbitCode_dvd {n : Nat} (h1 : 1 ≤ n) (h2 : n < 2 ^ 256) :
    lowbitCode n ∣ n := by
  rw [lowbitCode_eq h1 h2]; exact two_pow_tzF_dvd n h1

theorem predCode_eq_predP {n : Nat} (h1 : 1 ≤ n) (h2 : n < 2 ^ 256) :
    predCode n = predP n := by
  rw [predCode, predP, lowbitCode_eq h1 h2]

theorem predP_lt {n : Nat} (h1 : 1 ≤ n) : predP n < n :=
  Nat.sub_lt (by omega) (Nat.two_pow_pos _)

theorem predCode_lt {n : Nat} (h1 : 1 ≤ n) (h2 : n < 2 ^ 256) :
    predCode n < n := by
  rw [predCode_eq_predP h1 h2]; exact predP_lt h1

theorem hdp2_eq {n : Nat} (h1 : 1 ≤ n) :
    highest_divisor_power_of_2 n = some (lowbitCode n) := by
  simp [highest_divisor_power_of_2, u256Sub, h1, lowbitCode]

theorem hdp2_zero : highest_divisor_power_of_2 0 = none := by
  simp [highest_divisor_power_of_2, u256Sub]

theorem pred_eq {n : Nat} (h1 : 1 ≤ n) : pred n = some (predCode n) := by
  rw [pred, hdp2_eq h1]
  simp [u256Sub, lowbitCode_le n, predCode]

theorem pred_zero : pred 0 = none := by
  rw [pred, hdp2_zero]; rfl

end Accum

/-! ## Association-list and run-structure lemmas -/

namespace Accum

theorem mapGet_mapInsert_self (m : List (Nat × Digest)) (key : Nat)
    (v : Digest) : mapGet (mapInsert m key v) key = some v := by
  induction m with
  | nil => simp [mapInsert, mapGet]
  | cons hd t ih =>
    obtain ⟨a, b⟩ := hd
    by_cases h : key = a
    · simp [mapInsert, h, mapGet]
    · simp [mapInsert, h, mapGet, ih]

theorem mapGet_mapInsert_ne (m : List (Nat × Digest)) {key q : Nat}
    (h : q ≠ key) (v : Digest) :
    mapGet (mapInsert m key v) q = mapGet m q := by
  induction m with
  | nil => simp [mapInsert, mapGet, h]
  | cons hd t ih =>
    obtain ⟨a, b⟩ := hd
    by_cases hka : key = a
    · subst hka
      simp [mapInsert, mapGet, h]
    · by_cases hqa : q = a
      · simp [mapInsert, hka, mapGet, hqa]
      · simp [mapInsert, hka, mapGet, hqa, ih]

theorem mapInsert_keys (m : List (Nat × Digest)) {key : Nat}
    (h : key ∉ m.map Prod.fst) (v : Digest) :
    (mapInsert m key v).map Prod.fst = m.map Prod.fst ++ [key] := by
  induction m with
  | nil => simp [mapInsert]
  | cons hd t ih =>
    obtain ⟨a, b⟩ := hd
    simp only [List.map_cons, List.mem_cons] at h
    push_neg at h
    simp [mapInsert, h.1, ih h.2]

theorem roots_zero (H : Hash) (xs : List Digest) :
    roots H xs 0 = zeroDigest := by
  simp [roots]

theorem roots_succ (H : Hash) (xs : List Digest) (n : Nat) :
    roots H xs (n + 1) =
      H (xs.getD n zeroDigest ++ roots H xs n ++
        roots H xs (predP (n + 1))) := by
  rw [roots]

theorem roots_congr (H : Hash) {xs ys : List Digest} :
    ∀ n, (∀ m, m < n → xs.getD m zeroDigest = ys.getD m zeroDigest) →
      roots H xs n = roots H ys n := by
  intro n
  induction n using Nat.strong_induction_on with
  | _ n ih =>
    intro h
    match n with
    | 0 => simp [roots_zero]
    | n + 1 =>
      have hp : predP (n + 1) < n + 1 := predP_lt (by omega)
      rw [roots_succ, roots_succ, h n (by omega),
        ih n (by omega) (fun m hm => h m (by omega)),
        ih (predP (n + 1)) hp (fun m hm => h m (by omega))]

theorem roots_snoc (H : Hash) (xs : List Digest) (x : Digest) {n : Nat}
    (hn : n ≤ xs.length) : roots H (xs ++ [x]) n = roots H xs n := by
  apply roots_congr
  intro m hm
  rw [List.getD_eq_get?, List.getD_eq_get?,
    List.get?_append (by omega : m < xs.length)]

theorem runProver_snoc (H : Hash) (xs : List Digest) (x : Digest) :
    runProver H (xs ++ [x]) =
      (SimpleProver.insert H (runProver H xs) x).1 := by
  simp [runProver, List.foldl_append]

theorem runAccumulator_snoc (H : Hash) (xs : List Digest) (x : Digest) :
    runAccumulator H (xs ++ [x]) =
      (SimpleAccumulator.insert H (runAccumulator H xs) x).1 := by
  simp [runAccumulator, List.foldl_append]

theorem runProver_accumulator (H : Hash) (xs : List Digest) :
    (runProver H xs).accumulator = runAccumulator H xs := by
  induction xs using List.reverseRecOn with
  | nil => rfl
  | append_singleton xs x ih =>
    rw [runProver_snoc, runAccumulator_snoc, ← ih]
    rfl

theorem runAccumulator_klen (H : Hash) (xs : List Digest) :
    (runAccumulator H xs).k = xs.length := by
  induction xs using List.reverseRecOn with
  | nil => rfl
  | append_singleton xs x ih =>
    rw [runAccumulator_snoc]
    simp [SimpleAccumulator.insert, set_state_at, ih]

theorem runAccumulator_slen (H : Hash) (xs : List Digest) :
    (runAccumulator H xs).s.length = 256 := by
  induction xs using List.reverseRecOn with
  | nil => exact List.length_replicate 256 zeroDigest
  | append_singleton xs x ih =>
    rw [runAccumulator_snoc]
    simp [SimpleAccumulator.insert, set_state_at, ih]

theorem runProver_klen (H : Hash) (xs : List Digest) :
    (runProver H xs).accumulator.k = xs.length := by
  rw [runProver_accumulator]; exact runAccumulator_klen H xs

theorem runProver_slen (H : Hash) (xs : List Digest) :
    (runProver H xs).accumulator.s.length = 256 := by
  rw [runProver_accumulator]; exact runAccumulator_slen H xs

theorem runProver_ekeys (H : Hash) (xs : List Digest) :
    (runProver H xs).elements.map Prod.fst = List.range (xs.length + 1) := by
  induction xs using List.reverseRecOn with
  | nil => rfl
  | append_singleton xs x ih =>
    rw [runProver_snoc]
    show (mapInsert (runProver H xs).elements
      ((runProver H xs).accumulator.insert H x).1.k x).map Prod.fst = _
    have hk : ((runProver H xs).accumulator.insert H x).1.k =
        xs.length + 1 := by
      simp [SimpleAccumulator.insert, set_state_at, runProver_klen]
    rw [hk, mapInsert_keys _ (by
      rw [ih]
      simp [List.mem_range])]
    simp [ih, List.range_succ]

theorem runProver_rkeys (H : Hash) (xs : List Digest) :
    (runProver H xs).r.map Prod.fst = List.range (xs.length + 1) := by
  induction xs using List.reverseRecOn with
  | nil => rfl
  | append_singleton xs x ih =>
    rw [runProver_snoc]
    show (mapInsert (runProver H xs).r
      ((runProver H xs).accumulator.insert H x).1.k _).map Prod.fst = _
    have hk : ((runProver H xs).accumulator.insert H x).1.k =
        xs.length + 1 := by
      simp [SimpleAccumulator.insert, set_state_at, runProver_klen]
    rw [hk, mapInsert_keys _ (by
      rw [ih]
      simp [List.mem_range])]
    simp [ih, List.range_succ]

end Accum

/-! ## The state-slot invariant of the accumulator -/

namespace Accum

theorem two_pow_succ_dvd_predP {n : Nat} (hn : 1 ≤ n) :
    2 ^ (tzF n + 1) ∣ predP n := by
  obtain ⟨m, hm, hmo⟩ := tzF_decomp n hn
  set t := tzF n with ht
  obtain ⟨q, hq⟩ : ∃ q, m - 1 = 2 * q := ⟨(m - 1) / 2, by omega⟩
  refine ⟨q, ?_⟩
  show n - 2 ^ t = 2 ^ (t + 1) * q
  rw [hm]
  have hm' : 2 ^ t * m = 2 ^ t * 2 * q + 2 ^ t := by
    rw [show m = 2 * q + 1 by omega]; ring
  rw [hm', Nat.add_sub_cancel, pow_succ]

theorem tzF_between_pred {n m2 : Nat} (hn : 1 ≤ n) (hp : 1 ≤ predP n)
    (h1 : predP n < m2) (h2 : m2 < n) : tzF m2 ≠ tzF (predP n) := by
  have hdvd := two_pow_succ_dvd_predP hn
  have hle : tzF n + 1 ≤ tzF (predP n) := le_tzF_of_two_pow_dvd hp hdvd
  have hsub : 2 ^ tzF n ≤ n := two_pow_tzF_le n hn
  have hpn : predP n = n - 2 ^ tzF n := rfl
  set d := m2 - predP n with hd
  have hd1 : 1 ≤ d := by omega
  have hdlt : d < 2 ^ tzF n := by omega
  have htzd : tzF d < tzF n := tzF_lt_of_lt_pow hd1 hdlt
  have hm2 : tzF m2 = tzF d := by
    rw [show m2 = predP n + d by omega]
    exact tzF_add_eq hdvd hd1 (by omega)
  omega

theorem get?_some_of_lt {l : List Digest} {i : Nat} (h : i < l.length) :
    ∃ v, l.get? i = some v := by
  cases hv : l.get? i with
  | none => exact absurd (List.get?_eq_none.1 hv) (by omega)
  | some v => exact ⟨v, rfl⟩

theorem runProver_maps (H : Hash) (xs : List Digest) :
    xs.length < 2 ^ 256 →
    (∀ n, mapGet (runProver H xs).elements n =
      if n = 0 then some zeroDigest
      else if n ≤ xs.length then xs.get? (n - 1) else none) ∧
    (∀ n, mapGet (runProver H xs).r n =
      if n ≤ xs.length then some (roots H xs n) else none) ∧
    (∀ m, 1 ≤ m → m ≤ xs.length →
      (∀ m2, m < m2 → m2 ≤ xs.length → tzF m2 ≠ tzF m) →
      (runProver H xs).accumulator.s.get? (tzF m) =
        some (roots H xs m)) := by
  induction xs using List.reverseRecOn with
  | nil =>
    intro _
    refine ⟨?_, ?_, ?_⟩
    · intro n
      by_cases h0 : n = 0
      · subst h0; rfl
      · show mapGet [(0, zeroDigest)] n = _
        rw [mapGet, if_neg h0, if_neg h0, if_neg (by simp; omega), mapGet]
    · intro n
      by_cases h0 : n = 0
      · subst h0
        show mapGet [(0, zeroDigest)] 0 = _
        rw [if_pos (by simp), mapGet, if_pos rfl, roots_zero]
      · show mapGet [(0, zeroDigest)] n = _
        rw [mapGet, if_neg h0, if_neg (by simp; omega), mapGet]
    · intro m h1 h2
      simp at h2
      omega
  | append_singleton xs x ih =>
    intro hlen
    rw [List.length_append, List.length_singleton] at hlen
    have hx : xs.length < 2 ^ 256 := by omega
    obtain ⟨ihe, ihr, ihs⟩ := ih hx
    set P := runProver H xs with hP
    set k := xs.length with hk
    have hka : P.accumulator.k = k := runProver_klen H xs
    have hsl : P.accumulator.s.length = 256 := runProver_slen H xs
    have ht : tzF (k + 1) < 256 := tzF_lt_of_lt_pow (by omega) hlen
    have hlb : lowbitCode (k + 1) = 2 ^ tzF (k + 1) :=
      lowbitCode_eq (by omega) hlen
    have hpredIdx : k + 1 - lowbitCode (k + 1) = predP (k + 1) := by
      rw [hlb]; rfl
    have hpplt : predP (k + 1) < k + 1 := predP_lt (by omega)
    have hprev :
        (get_state ⟨k + 1, P.accumulator.s⟩ (k + 1 - 1)).getD zeroDigest =
          roots H xs k := by
      simp only [Nat.add_sub_cancel]
      by_cases h0 : k = 0
      · rw [h0]; simp [get_state, roots_zero]
      · rw [get_state, if_neg h0, trailing_zeros, if_neg h0]
        show (P.accumulator.s.get? (tzF k)).getD zeroDigest = _
        rw [ihs k (by omega) (le_refl _) (fun m2 ha hb => by omega)]
        rfl
    have hpd :
        (get_state ⟨k + 1, P.accumulator.s⟩
          (k + 1 - lowbitCode (k + 1))).getD zeroDigest =
          roots H xs (predP (k + 1)) := by
      rw [hpredIdx]
      by_cases h0 : predP (k + 1) = 0
      · rw [h0]; simp [get_state, roots_zero]
      · rw [get_state, if_neg h0, trailing_zeros, if_neg h0]
        show (P.accumulator.s.get? (tzF (predP (k + 1)))).getD zeroDigest = _
        rw [ihs (predP (k + 1)) (by omega) (by omega)
          (fun m2 ha hb => tzF_between_pred (by omega) (by omega) ha
            (by omega))]
        rfl
    have hroot : roots H (xs ++ [x]) (k + 1) =
        H (x ++ roots H xs k ++ roots H xs (predP (k + 1))) := by
      rw [roots_succ, roots_snoc H xs x (le_refl k),
        roots_snoc H xs x (by omega : predP (k + 1) ≤ xs.length),
        List.getD_eq_get?, List.get?_concat_length]
      rfl
    set rt := roots H (xs ++ [x]) (k + 1) with hrt
    have hins : P.accumulator.insert H x =
        (⟨k + 1, P.accumulator.s.set (tzF (k + 1)) rt⟩, rt) := by
      rw [SimpleAccumulator.insert, hka]
      rw [hprev, hpd, ← hroot]
      rw [set_state_at, trailing_zeros, if_neg (by omega)]
    have hPins : SimpleProver.insert H P x =
        (⟨⟨k + 1, P.accumulator.s.set (tzF (k + 1)) rt⟩,
           mapInsert P.elements (k + 1) x, mapInsert P.r (k + 1) rt⟩, rt) := by
      rw [SimpleProver.insert, hins]
    rw [runProver_snoc, ← hP, hPins]
    refine ⟨?_, ?_, ?_⟩
    · intro n
      simp only [List.length_append, List.length_singleton, ← hk]
      by_cases hn : n = k + 1
      · subst hn
        rw [mapGet_mapInsert_self, if_neg (by omega), if_pos (by omega),
          Nat.add_sub_cancel, List.get?_concat_length]
      · rw [mapGet_mapInsert_ne _ hn, ihe n]
        by_cases h0 : n = 0
        · simp [h0]
        · rw [if_neg h0, if_neg h0]
          by_cases hnk : n ≤ k
          · rw [if_pos hnk, if_pos (by omega),
              List.get?_append (by omega : n - 1 < xs.length)]
          · rw [if_neg hnk, if_neg (by omega)]
    · intro n
      simp only [List.length_append, List.length_singleton, ← hk]
      by_cases hn : n = k + 1
      · subst hn
        rw [mapGet_mapInsert_self, if_pos (by omega), hrt]
      · rw [mapGet_mapInsert_ne _ hn, ihr n]
        by_cases hnk : n ≤ k
        · rw [if_pos hnk, if_pos (by omega), roots_snoc H xs x hnk]
        · rw [if_neg hnk, if_neg (by omega)]
    · intro m h1 h2 hcoll
      simp only [List.length_append, List.length_singleton, ← hk] at h2 hcoll
      by_cases hm : m = k + 1
      · subst hm
        obtain ⟨v, hv⟩ := get?_some_of_lt
          (show tzF (k + 1) < P.accumulator.s.length by omega)
        show (P.accumulator.s.set (tzF (k + 1)) rt).get? (tzF (k + 1)) = _
        rw [List.get?_set_eq, hv]
        rfl
      · have hmk : m ≤ k := by omega
        have hne : tzF (k + 1) ≠ tzF m :=
          hcoll (k + 1) (by omega) (le_refl _)
        show (P.accumulator.s.set (tzF (k + 1)) rt).get? (tzF m) = _
        rw [List.get?_set_ne _ _ hne,
          ihs m h1 hmk (fun m2 ha hb => hcoll m2 ha (by omega)),
          roots_snoc H xs x hmk]

end Accum

/-! ## Fuel handling for the recursive prover and verifier -/

namespace Accum

theorem prove_fromF_fuel_irrel :
    ∀ i, i < 2 ^ 256 → ∀ f g (P : SimpleProver) j, i < f → i < g →
      prove_fromF f P i j = prove_fromF g P i j := by
  intro i
  induction i using Nat.strong_induction_on with
  | _ i ih =>
    intro hi f g P j hf hg
    obtain ⟨f', rfl⟩ : ∃ f', f = f' + 1 := ⟨f - 1, by omega⟩
    obtain ⟨g', rfl⟩ : ∃ g', g = g' + 1 := ⟨g - 1, by omega⟩
    simp only [prove_fromF]
    by_cases hj : j > i
    · simp [hj]
    · simp only [if_neg hj]
      by_cases hi0 : i = 0
      · rw [hi0, pred_zero]
      · rw [pred_eq (by omega)]
        have hplt : predCode i < i := predCode_lt (by omega) hi
        dsimp only
        cases mapGet P.elements i with
        | none => rfl
        | some xi =>
        dsimp only
        cases mapGet P.r (i - 1) with
        | none => rfl
        | some prev =>
        dsimp only
        cases mapGet P.r (predCode i) with
        | none => rfl
        | some pd =>
        dsimp only
        by_cases hij : i > j
        · by_cases hpj : predCode i ≥ j
          · simp only [if_pos hij, if_pos hpj,
              ih (predCode i) hplt (by omega) f' g' P j (by omega)
                (by omega)]
          · simp only [if_pos hij, if_neg hpj,
              ih (i - 1) (by omega) (by omega) f' g' P j (by omega)
                (by omega)]
        · simp only [if_neg hij]

theorem verifyF_fuel_irrel :
    ∀ i, i < 2 ^ 256 → ∀ f g (H : Hash) r j w x, i < f → i < g →
      verifyF f H r i j w x = verifyF g H r i j w x := by
  intro i
  induction i using Nat.strong_induction_on with
  | _ i ih =>
    intro hi f g H r j w x hf hg
    obtain ⟨f', rfl⟩ : ∃ f', f = f' + 1 := ⟨f - 1, by omega⟩
    obtain ⟨g', rfl⟩ : ∃ g', g = g' + 1 := ⟨g - 1, by omega⟩
    simp only [verifyF]
    by_cases hj : i < j
    · simp [hj]
    · simp only [if_neg hj]
      match w with
      | [] => rfl
      | [a] => rfl
      | [a, b] => rfl
      | a :: b :: c :: rest =>
        simp only
        by_cases hr : H (a ++ b ++ c) ≠ r
        · simp only [if_pos hr]
        · simp only [if_neg hr]
          by_cases hij : i = j
          · simp only [if_pos hij]
          · simp only [if_neg hij]
            have hi1 : 1 ≤ i := by omega
            have hplt : predCode i < i := predCode_lt hi1 hi
            by_cases hpj : predCode i ≥ j
            · simp only [if_pos hpj,
                ih (predCode i) hplt (by omega) f' g' H c j rest x
                  (by omega) (by omega)]
            · simp only [if_neg hpj,
                ih (i - 1) (by omega) (by omega) f' g' H b j rest x
                  (by omega) (by omega)]

theorem prove_fromF_ne_outOfBounds :
    ∀ f (P : SimpleProver) i j, j ≤ i →
      prove_fromF f P i j ≠ .err .outOfBounds := by
  intro f
  induction f with
  | zero => intro P i j h; simp [prove_fromF]
  | succ f ih =>
    intro P i j h
    rw [prove_fromF]
    rw [if_neg (by omega)]
    cases hp : pred i with
    | none => simp
    | some pred_i =>
      dsimp only
      cases he : mapGet P.elements i with
      | none => simp
      | some xi =>
      dsimp only
      cases h1 : mapGet P.r (i - 1) with
      | none => simp
      | some prev =>
      dsimp only
      cases h2 : mapGet P.r pred_i with
      | none => simp
      | some pd =>
      dsimp only
      by_cases hij : i > j
      · rw [if_pos hij]
        by_cases hpj : pred_i ≥ j
        · rw [if_pos hpj]
          cases hr : prove_fromF f P pred_i j with
          | ok w => simp
          | err e =>
            dsimp only
            intro hc
            simp only [PRes.err.injEq] at hc
            apply ih P pred_i j hpj
            rw [hr, hc]
          | panicked => simp
        · rw [if_neg hpj]
          cases hr : prove_fromF f P (i - 1) j with
          | ok w => simp
          | err e =>
            dsimp only
            intro hc
            simp only [PRes.err.injEq] at hc
            apply ih P (i - 1) j (by omega)
            rw [hr, hc]
          | panicked => simp
      · rw [if_neg hij]
        simp

end Accum

/-! ## Completeness and soundness of the prove/verify pair -/

namespace Accum

theorem prove_verify_spec (H : Hash) (xs : List Digest)
    (hlen : xs.length < 2 ^ 256) :
    ∀ i j xj, 1 ≤ j → j ≤ i → i ≤ xs.length → xs.get? (j - 1) = some xj →
    ∃ w, (∀ f, i < f → prove_fromF f (runProver H xs) i j = .ok w) ∧
      w.length % 3 = 0 ∧ w.length ≤ 3 * (i - j + 1) ∧
      (∀ x f, i < f → verifyF f H (roots H xs i) i j w x =
        if x = xj then .ok () else .err .xiMismatch) := by
  obtain ⟨ihe, ihr, _⟩ := runProver_maps H xs hlen
  intro i
  induction i using Nat.strong_induction_on with
  | _ i ih =>
    intro j xj hj hji hik hxj
    have hi1 : 1 ≤ i := by omega
    have hi256 : i < 2 ^ 256 := by omega
    have hei : mapGet (runProver H xs).elements i = xs.get? (i - 1) := by
      rw [ihe i, if_neg (by omega), if_pos hik]
    obtain ⟨xi, hxi⟩ : ∃ xi,
        mapGet (runProver H xs).elements i = some xi := by
      rw [hei]; exact get?_some_of_lt (by omega)
    have hri : mapGet (runProver H xs).r (i - 1) =
        some (roots H xs (i - 1)) := by
      rw [ihr, if_pos (by omega)]
    have hplt : predCode i < i := predCode_lt hi1 hi256
    have hrp : mapGet (runProver H xs).r (predCode i) =
        some (roots H xs (predCode i)) := by
      rw [ihr, if_pos (by omega)]
    have hped : pred i = some (predCode i) := pred_eq hi1
    have hpp : predP i = predCode i := (predCode_eq_predP hi1 hi256).symm
    have hhash : H (xi ++ roots H xs (i - 1) ++ roots H xs (predCode i)) =
        roots H xs i := by
      obtain ⟨i', rfl⟩ : ∃ i', i = i' + 1 := ⟨i - 1, by omega⟩
      rw [roots_succ]
      have h2 : xs.get? (i' + 1 - 1) = some xi := by rw [← hei]; exact hxi
      simp only [Nat.add_sub_cancel] at h2 ⊢
      have h1 : xs.getD i' zeroDigest = xi := by
        rw [List.getD_eq_get?, h2]
        rfl
      rw [h1, hpp]
    by_cases hij : i = j
    · subst hij
      have hxij : xi = xj := by
        have h2 : xs.get? (i - 1) = some xi := by rw [← hei]; exact hxi
        rw [h2] at hxj
        exact (Option.some.injEq _ _ ▸ hxj : xi = xj)
      refine ⟨[xi, roots H xs (i - 1), roots H xs (predCode i)],
        ?_, by simp, by simp, ?_⟩
      · intro f hf
        obtain ⟨f', rfl⟩ : ∃ f', f = f' + 1 := ⟨f - 1, by omega⟩
        rw [prove_fromF, if_neg (by omega), hped]
        dsimp only
        rw [hxi]
        dsimp only
        rw [hri]
        dsimp only
        rw [hrp]
        dsimp only
        rw [if_neg (by omega)]
      · intro x f hf
        obtain ⟨f', rfl⟩ : ∃ f', f = f' + 1 := ⟨f - 1, by omega⟩
        rw [verifyF, if_neg (by omega)]
        try dsimp only
        rw [if_neg (show ¬ (H (xi ++ roots H xs (i - 1) ++
            roots H xs (predCode i)) ≠ roots H xs i) from fun hc => hc hhash)]
        rw [if_pos rfl]
        subst hxij
        by_cases hxx : x = xi
        · rw [if_pos hxx.symm, if_pos hxx]
        · rw [if_neg (fun h => hxx h.symm), if_neg hxx]
    · have hij' : j < i := by omega
      by_cases hpj : predCode i ≥ j
      · obtain ⟨w', hpw', hl3, hlB, hver'⟩ :=
          ih (predCode i) hplt j xj hj hpj (by omega) hxj
        refine ⟨[xi, roots H xs (i - 1), roots H xs (predCode i)] ++ w',
          ?_, ?_, ?_, ?_⟩
        · intro f hf
          obtain ⟨f', rfl⟩ : ∃ f', f = f' + 1 := ⟨f - 1, by omega⟩
          rw [prove_fromF, if_neg (by omega), hped]
          dsimp only
          rw [hxi]
          dsimp only
          rw [hri]
          dsimp only
          rw [hrp]
          dsimp only
          rw [if_pos hij', if_pos hpj, hpw' f' (by omega)]
        · simp only [List.length_append, List.length_cons,
            List.length_nil]
          omega
        · simp only [List.length_append, List.length_cons,
            List.length_nil]
          omega
        · intro x f hf
          obtain ⟨f', rfl⟩ : ∃ f', f = f' + 1 := ⟨f - 1, by omega⟩
          simp only [List.cons_append, List.nil_append]
          rw [verifyF, if_neg (by omega)]
          try dsimp only
          rw [if_neg (show ¬ (H (xi ++ roots H xs (i - 1) ++
              roots H xs (predCode i)) ≠ roots H xs i) from
            fun hc => hc hhash)]
          rw [if_neg hij, if_pos hpj]
          exact hver' x f' (by omega)
      · have hji1 : j ≤ i - 1 := by omega
        obtain ⟨w', hpw', hl3, hlB, hver'⟩ :=
          ih (i - 1) (by omega) j xj hj hji1 (by omega) hxj
        refine ⟨[xi, roots H xs (i - 1), roots H xs (predCode i)] ++ w',
          ?_, ?_, ?_, ?_⟩
        · intro f hf
          obtain ⟨f', rfl⟩ : ∃ f', f = f' + 1 := ⟨f - 1, by omega⟩
          rw [prove_fromF, if_neg (by omega), hped]
          dsimp only
          rw [hxi]
          dsimp only
          rw [hri]
          dsimp only
          rw [hrp]
          dsimp only
          rw [if_pos hij', if_neg hpj, hpw' f' (by omega)]
        · simp only [List.length_append, List.length_cons,
            List.length_nil]
          omega
        · simp only [List.length_append, List.length_cons,
            List.length_nil]
          omega
        · intro x f hf
          obtain ⟨f', rfl⟩ : ∃ f', f = f' + 1 := ⟨f - 1, by omega⟩
          simp only [List.cons_append, List.nil_append]
          rw [verifyF, if_neg (by omega)]
          try dsimp only
          rw [if_neg (show ¬ (H (xi ++ roots H xs (i - 1) ++
              roots H xs (predCode i)) ≠ roots H xs i) from
            fun hc => hc hhash)]
          rw [if_neg hij, if_neg hpj]
          exact hver' x f' (by omega)

end Accum

/-! ## Supporting lemmas for the claim theorems -/

namespace Accum

theorem get_state_some (a : SimpleAccumulator) (hs : a.s.length = 256)
    {n : Nat} (hn : n < 2 ^ 256) : ∃ v, get_state a n = some v := by
  by_cases h0 : n = 0
  · exact ⟨zeroDigest, by rw [get_state, if_pos h0]⟩
  · have ht : tzF n < 256 := tzF_lt_of_lt_pow (by omega) hn
    obtain ⟨v, hv⟩ := get?_some_of_lt
      (show trailing_zeros n < a.s.length by
        rw [trailing_zeros, if_neg h0]; omega)
    exact ⟨v, by rw [get_state, if_neg h0]; exact hv⟩

/-- The two `.unwrap()` calls inside `SimpleAccumulator::insert` never
observe a `None` on any state with a full 256-slot slice and a length below
`2^256`: both `get_state` reads return `Some`. -/
theorem insert_unwraps_ok (a : SimpleAccumulator) (hs : a.s.length = 256)
    (hk : a.k + 1 < 2 ^ 256) :
    (get_state ⟨a.k + 1, a.s⟩ (a.k + 1 - 1)).isSome ∧
    (get_state ⟨a.k + 1, a.s⟩
      (a.k + 1 - lowbitCode (a.k + 1))).isSome := by
  have hgs : ∀ m, get_state ⟨a.k + 1, a.s⟩ m = get_state a m := fun m => rfl
  constructor
  · obtain ⟨v, hv⟩ := get_state_some a hs
      (show a.k + 1 - 1 < 2 ^ 256 by omega)
    rw [hgs, hv]; rfl
  · obtain ⟨v, hv⟩ := get_state_some a hs
      (show a.k + 1 - lowbitCode (a.k + 1) < 2 ^ 256 by omega)
    rw [hgs, hv]; rfl

theorem get_state_length (a : SimpleAccumulator)
    (hsd : ∀ d ∈ a.s, d.length = 32) {n : Nat} {v : Digest}
    (h : get_state a n = some v) : v.length = 32 := by
  rw [get_state] at h
  split at h
  · cases h
    simp [zeroDigest]
  · exact hsd v (List.get?_mem h)

theorem runProver_map_zero (H : Hash) (xs : List Digest) :
    mapGet (runProver H xs).elements 0 = some zeroDigest ∧
    mapGet (runProver H xs).r 0 = some zeroDigest := by
  induction xs using List.reverseRecOn with
  | nil => exact ⟨rfl, rfl⟩
  | append_singleton xs x ih =>
    rw [runProver_snoc]
    have hk : ((runProver H xs).accumulator.insert H x).1.k =
        xs.length + 1 := by
      simp [SimpleAccumulator.insert, set_state_at, runProver_klen]
    show mapGet (mapInsert (runProver H xs).elements
        ((runProver H xs).accumulator.insert H x).1.k x) 0 =
          some zeroDigest ∧
      mapGet (mapInsert (runProver H xs).r
        ((runProver H xs).accumulator.insert H x).1.k _) 0 =
          some zeroDigest
    rw [hk, mapGet_mapInsert_ne _ (by omega), mapGet_mapInsert_ne _ (by omega)]
    exact ih

theorem isEmpty_false_of_length {l : List Digest} (h : l.length = 256) :
    l.isEmpty = false := by
  cases l with
  | nil => simp at h
  | cons a t => rfl

end Accum

/-! ## Claim theorems -/

namespace Accum

/-- C1: Completeness round-trip.  For every hash parameter, every inserted
sequence of 32-byte elements `x_1 … x_k` (`k < 2^256`), and every pair of
indices `1 ≤ j ≤ i ≤ k`, `prove_from(i, j)` on the prover holding the full
history succeeds with some witness `w`, and `verify(r_i, i, j, w, x_j)`
returns `Ok(())`, where `r_i` is the root recorded for index `i` in the
prover root map after the i-th insert. -/
theorem C1_completeness (H : Hash) (xs : List Digest) (i j : Nat)
    (xj ri : Digest)
    (hlen : xs.length < 2 ^ 256) (hbytes : ∀ d ∈ xs, d.length = 32)
    (hj : 1 ≤ j) (hji : j ≤ i) (hik : i ≤ xs.length)
    (hxj : xs.get? (j - 1) = some xj)
    (hri : mapGet (runProver H xs).r i = some ri) :
    ∃ w, prove_from (runProver H xs) i j = .ok w ∧
      verify H ri i j w xj = .ok () := by
  obtain ⟨w, hp, _, _, hv⟩ :=
    prove_verify_spec H xs hlen i j xj hj hji hik hxj
  have hroot : ri = roots H xs i := by
    have h2 := (runProver_maps H xs hlen).2.1 i
    rw [hri, if_pos hik] at h2
    exact Option.some.inj h2
  refine ⟨w, hp (i + 1) (by omega), ?_⟩
  rw [verify, hroot, hv xj (i + 1) (by omega), if_pos rfl]

set_option maxRecDepth 8000 in
/-- Witness for C1 at the concrete input `H = H0`, `xs = [d1]`,
`i = j = 1`. -/
theorem C1_completeness_witness :
    ([d1] : List Digest).length < 2 ^ 256 ∧
    (∀ d ∈ ([d1] : List Digest), d.length = 32) ∧
    (1 : Nat) ≤ 1 ∧ (1 : Nat) ≤ 1 ∧ 1 ≤ ([d1] : List Digest).length ∧
    ([d1] : List Digest).get? (1 - 1) = some d1 ∧
    mapGet (runProver H0 [d1]).r 1 = some zeroDigest ∧
    (∃ w, prove_from (runProver H0 [d1]) 1 1 = .ok w ∧
      verify H0 zeroDigest 1 1 w d1 = .ok ()) :=
  ⟨by decide, by decide, by decide, by decide, by decide, by decide,
    by decide,
    C1_completeness H0 [d1] 1 1 d1 zeroDigest (by decide) (by decide)
      (by decide) (by decide) (by decide) (by decide) (by decide)⟩

/-- C3: Soundness against element substitution.  For every history, all
`1 ≤ j ≤ i ≤ k`, the witness produced by `prove_from(i, j)`, and every
32-byte value `x'` different from `x_j`, `verify(r_i, i, j, w, x')` returns
the error `XiMismatch` (`r_i` being the recorded root at index `i`). -/
theorem C3_soundness_substitution (H : Hash) (xs : List Digest) (i j : Nat)
    (xj ri xbad : Digest) (w : List Digest)
    (hlen : xs.length < 2 ^ 256) (hbytes : ∀ d ∈ xs, d.length = 32)
    (hxblen : xbad.length = 32)
    (hj : 1 ≤ j) (hji : j ≤ i) (hik : i ≤ xs.length)
    (hxj : xs.get? (j - 1) = some xj)
    (hri : mapGet (runProver H xs).r i = some ri)
    (hne : xbad ≠ xj)
    (hw : prove_from (runProver H xs) i j = .ok w) :
    verify H ri i j w xbad = .err .xiMismatch := by
  obtain ⟨w0, hp, _, _, hv⟩ :=
    prove_verify_spec H xs hlen i j xj hj hji hik hxj
  have hww : w = w0 := by
    have h2 := hp (i + 1) (by omega)
    rw [prove_from] at hw
    rw [h2] at hw
    exact (PRes.ok.inj hw).symm
  have hroot : ri = roots H xs i := by
    have h2 := (runProver_maps H xs hlen).2.1 i
    rw [hri, if_pos hik] at h2
    exact Option.some.inj h2
  subst hww
  rw [verify, hroot, hv xbad (i + 1) (by omega), if_neg hne]

set_option maxRecDepth 8000 in
/-- Witness for C3 at the concrete input `H = H0`, `xs = [d1]`,
`i = j = 1`, substituted element `zeroDigest ≠ d1`. -/
theorem C3_soundness_substitution_witness :
    ([d1] : List Digest).length < 2 ^ 256 ∧
    (∀ d ∈ ([d1] : List Digest), d.length = 32) ∧
    (zeroDigest : Digest).length = 32 ∧
    (1 : Nat) ≤ 1 ∧ (1 : Nat) ≤ 1 ∧ 1 ≤ ([d1] : List Digest).length ∧
    ([d1] : List Digest).get? (1 - 1) = some d1 ∧
    mapGet (runProver H0 [d1]).r 1 = some zeroDigest ∧
    zeroDigest ≠ d1 ∧
    prove_from (runProver H0 [d1]) 1 1 =
      .ok [d1, zeroDigest, zeroDigest] ∧
    verify H0 zeroDigest 1 1 [d1, zeroDigest, zeroDigest] zeroDigest =
      .err .xiMismatch :=
  ⟨by decide, by decide, by decide, by decide, by decide, by decide,
    by decide, by decide, by decide, by decide,
    C3_soundness_substitution H0 [d1] 1 1 d1 zeroDigest zeroDigest
      [d1, zeroDigest, zeroDigest] (by decide) (by decide) (by decide)
      (by decide) (by decide) (by decide) (by decide) (by decide)
      (by decide) (by decide)⟩

end Accum

namespace Accum

/-- C2: Insert protocol.  For every accumulator state with a full 256-slot
slice, length `k` with `k + 1 < 2^256`, and 32-byte contents, `insert(x)`
returns `r = H(x ‖ prev_root ‖ pred_root)` where `prev_root = state(k)`
(the zero digest when `k = 0`) and `pred_root = state((k+1) - lowbit(k+1))`,
concatenated in exactly that order over 96 bytes; it sets the length to
`k + 1` and stores `r` in slot `trailing_zeros(k+1)`.  In particular the
first insert yields `r_1 = H(x_1 ‖ 0 ‖ 0)`. -/
theorem C2_insert_protocol (H : Hash) (a : SimpleAccumulator) (x : Digest)
    (hs : a.s.length = 256) (hk : a.k + 1 < 2 ^ 256)
    (hx : x.length = 32) (hsd : ∀ d ∈ a.s, d.length = 32) :
    ∃ prevD predD,
      get_state a a.k = some prevD ∧
      get_state a (a.k + 1 - lowbitCode (a.k + 1)) = some predD ∧
      (a.insert H x).2 = H (x ++ prevD ++ predD) ∧
      (x ++ prevD ++ predD).length = 96 ∧
      (a.insert H x).1.k = a.k + 1 ∧
      (a.insert H x).1.s =
        a.s.set (trailing_zeros (a.k + 1)) ((a.insert H x).2) ∧
      (a.k = 0 → (a.insert H x).2 = H (x ++ zeroDigest ++ zeroDigest)) := by
  obtain ⟨prevD, hprevD⟩ :=
    get_state_some a hs (show a.k < 2 ^ 256 by omega)
  obtain ⟨predD, hpredD⟩ := get_state_some a hs
    (show a.k + 1 - lowbitCode (a.k + 1) < 2 ^ 256 by omega)
  have hgs : ∀ m, get_state ⟨a.k + 1, a.s⟩ m = get_state a m :=
    fun m => rfl
  have hr2 : (a.insert H x).2 = H (x ++ prevD ++ predD) := by
    rw [SimpleAccumulator.insert]
    dsimp only
    rw [Nat.add_sub_cancel, hgs, hgs, hprevD, hpredD]
    rfl
  refine ⟨prevD, predD, hprevD, hpredD, hr2, ?_, rfl, rfl, ?_⟩
  · have h1 : prevD.length = 32 := get_state_length a hsd hprevD
    have h2 : predD.length = 32 := get_state_length a hsd hpredD
    simp [List.length_append, hx, h1, h2]
  · intro h0
    have ht1 : tzF 1 = 0 := rfl
    have hlb1 : lowbitCode 1 = 1 := by
      rw [lowbitCode_eq (by omega) (by omega), ht1, pow_zero]
    have hidx : a.k + 1 - lowbitCode (a.k + 1) = 0 := by
      rw [h0]
      simp only [Nat.zero_add]
      rw [hlb1]
    have hp0 : prevD = zeroDigest := by
      rw [get_state, if_pos h0] at hprevD
      exact (Option.some.inj hprevD).symm
    have hq0 : predD = zeroDigest := by
      rw [hidx, get_state, if_pos rfl] at hpredD
      exact (Option.some.inj hpredD).symm
    rw [hr2, hp0, hq0]

set_option maxRecDepth 8000 in
/-- Witness for C2 at the concrete input: the default accumulator, element
`d1`, hash `H0`. -/
theorem C2_insert_protocol_witness :
    SimpleAccumulator.default.s.length = 256 ∧
    SimpleAccumulator.default.k + 1 < 2 ^ 256 ∧
    d1.length = 32 ∧
    (∀ d ∈ SimpleAccumulator.default.s, d.length = 32) ∧
    (∃ prevD predD,
      get_state SimpleAccumulator.default SimpleAccumulator.default.k =
        some prevD ∧
      get_state SimpleAccumulator.default
        (SimpleAccumulator.default.k + 1 -
          lowbitCode (SimpleAccumulator.default.k + 1)) = some predD ∧
      (SimpleAccumulator.default.insert H0 d1).2 =
        H0 (d1 ++ prevD ++ predD) ∧
      (d1 ++ prevD ++ predD).length = 96 ∧
      (SimpleAccumulator.default.insert H0 d1).1.k =
        SimpleAccumulator.default.k + 1 ∧
      (SimpleAccumulator.default.insert H0 d1).1.s =
        SimpleAccumulator.default.s.set
          (trailing_zeros (SimpleAccumulator.default.k + 1))
          ((SimpleAccumulator.default.insert H0 d1).2) ∧
      (SimpleAccumulator.default.k = 0 →
        (SimpleAccumulator.default.insert H0 d1).2 =
          H0 (d1 ++ zeroDigest ++ zeroDigest))) :=
  ⟨by decide, by decide, by decide, by decide,
    C2_insert_protocol H0 SimpleAccumulator.default d1 (by decide)
      (by decide) (by decide) (by decide)⟩

set_option maxRecDepth 8000 in
/-- C4 counterexample: on the prover holding one inserted element,
`prove(1)` does not equal `prove_from(popcount(k), 1)` (with `k = 1`,
`popcount k = 1`): the former anchors at `state_len = 256` (the fixed
length of the backing state slice) and fails with `MissingHistory(256)`,
while the latter succeeds. -/
theorem C4_counterexample :
    prove (runProver H0 [d1]) 1 ≠
      prove_from (runProver H0 [d1]) (popcount 1) 1 := by decide

/-- C4 amended: `prove(j)` is exactly `prove_from(state_len, j)`, but
`state_len` is the length of the backing state slice returned by
`state()`, which is the constant 256 for every reachable prover — not the
number of set bits of `k`. -/
theorem C4_amended (H : Hash) (xs : List Digest) (j : Nat) :
    prove (runProver H xs) j = prove_from (runProver H xs) 256 j ∧
    state_len (runProver H xs) = 256 := by
  have hs : state_len (runProver H xs) = 256 := runProver_slen H xs
  constructor
  · rw [prove, hs]
  · exact hs

/-- C5 counterexample: `highest_divisor_power_of_2 0` evaluates `0 - 1`,
which underflows on `U256` (a panic, modelled as `none`); it does not
return 0. -/
theorem C5_counterexample :
    highest_divisor_power_of_2 0 = none ∧
    highest_divisor_power_of_2 0 ≠ some 0 := by decide

/-- C5 amended: for every `1 ≤ n < 2^256`, `lowbit(n)` computes
`n AND complement(n - 1)` and equals `2^trailing_zeros(n)`; at `n = 0` the
subtraction `n - 1` underflows and the call panics instead of returning
0. -/
theorem C5_amended (n : Nat) (h1 : 1 ≤ n) (h2 : n < 2 ^ 256) :
    highest_divisor_power_of_2 n = some (lowbitCode n) ∧
    lowbitCode n = 2 ^ trailing_zeros n ∧
    highest_divisor_power_of_2 0 = none := by
  refine ⟨hdp2_eq h1, ?_, hdp2_zero⟩
  rw [trailing_zeros, if_neg (by omega)]
  exact lowbitCode_eq h1 h2

/-- Witness for C5 amended at `n = 12` (`lowbit 12 = 4`). -/
theorem C5_amended_witness :
    1 ≤ (12 : Nat) ∧ (12 : Nat) < 2 ^ 256 ∧
    (highest_divisor_power_of_2 12 = some (lowbitCode 12) ∧
      lowbitCode 12 = 2 ^ trailing_zeros 12 ∧
      highest_divisor_power_of_2 0 = none) :=
  ⟨by decide, by decide, C5_amended 12 (by decide) (by decide)⟩

end Accum

namespace Accum

/-- C6: Prover-side failure semantics.  For every prover state and indices
`i ≥ 1`, `j`: `prove_from(i, j)` returns `OutOfBounds` exactly when
`j > i`; otherwise, if `X[i]`, `R[i-1]`, or `R[pred(i)]` is absent from the
recorded history, the call fails with `MissingHistory` carrying that
missing index, the three lookups checked in that order. -/
theorem C6_prover_failure_semantics (P : SimpleProver) (i j : Nat)
    (hi : 1 ≤ i) :
    (prove_from P i j = .err .outOfBounds ↔ i < j) ∧
    (j ≤ i → mapGet P.elements i = none →
      prove_from P i j = .err (.missingHistory i)) ∧
    (j ≤ i → ∀ xi, mapGet P.elements i = some xi →
      mapGet P.r (i - 1) = none →
      prove_from P i j = .err (.missingHistory (i - 1))) ∧
    (j ≤ i → ∀ xi rv, mapGet P.elements i = some xi →
      mapGet P.r (i - 1) = some rv →
      mapGet P.r (predCode i) = none →
      prove_from P i j = .err (.missingHistory (predCode i))) := by
  refine ⟨⟨?_, ?_⟩, ?_, ?_, ?_⟩
  · intro h
    by_contra hc
    push_neg at hc
    exact prove_fromF_ne_outOfBounds (i + 1) P i j (by omega) h
  · intro h
    rw [prove_from, prove_fromF, if_pos h]
  · intro hji he
    rw [prove_from, prove_fromF, if_neg (by omega), pred_eq hi]
    dsimp only
    rw [he]
  · intro hji xi he hr1
    rw [prove_from, prove_fromF, if_neg (by omega), pred_eq hi]
    dsimp only
    rw [he]
    dsimp only
    rw [hr1]
  · intro hji xi rv he hr1 hrp
    rw [prove_from, prove_fromF, if_neg (by omega), pred_eq hi]
    dsimp only
    rw [he]
    dsimp only
    rw [hr1]
    dsimp only
    rw [hrp]

set_option maxRecDepth 8000 in
/-- Witness for C6: all four parts applied at concrete prover states
(empty history for OutOfBounds and the first MissingHistory; the
hand-built states `P6b` and `P6a` for the second and third lookups). -/
theorem C6_prover_failure_semantics_witness :
    (1 ≤ (1 : Nat) ∧
      (prove_from (runProver H0 []) 1 2 = .err .outOfBounds ↔ 1 < 2)) ∧
    prove_from (runProver H0 []) 1 1 = .err (.missingHistory 1) ∧
    prove_from P6b 1 1 = .err (.missingHistory 0) ∧
    prove_from P6a 2 1 = .err (.missingHistory (predCode 2)) :=
  ⟨⟨by decide,
    (C6_prover_failure_semantics (runProver H0 []) 1 2 (by decide)).1⟩,
   (C6_prover_failure_semantics (runProver H0 []) 1 1 (by decide)).2.1
     (by decide) (by decide),
   (C6_prover_failure_semantics P6b 1 1 (by decide)).2.2.1 (by decide) d1
     (by decide) (by decide),
   (C6_prover_failure_semantics P6a 2 1 (by decide)).2.2.2 (by decide) d1
     zeroDigest (by decide) (by decide) (by decide)⟩

/-- C7: Verifier input guards.  For every call, if `j > i` the function
panics (the `assert!`, not a returned error); otherwise a witness slice
with fewer than 3 entries at the current recursion level yields
`WitnessTooShort`. -/
theorem C7_verifier_guards (H : Hash) (r : Digest) (i j : Nat)
    (w : List Digest) (x : Digest) :
    (i < j → verify H r i j w x = .panicked) ∧
    (j ≤ i → w.length < 3 → verify H r i j w x = .err .witnessTooShort) := by
  constructor
  · intro h
    match w with
    | [] => rw [verify, verifyF, if_pos h] <;> simp
    | [a] => rw [verify, verifyF, if_pos h] <;> simp
    | [a, b] => rw [verify, verifyF, if_pos h] <;> simp
    | a :: b :: c :: t => rw [verify, verifyF, if_pos h]
  · intro h hw
    match w with
    | [] => rw [verify, verifyF, if_neg (by omega)] <;> simp
    | [a] => rw [verify, verifyF, if_neg (by omega)] <;> simp
    | [a, b] => rw [verify, verifyF, if_neg (by omega)] <;> simp
    | a :: b :: c :: t =>
      simp only [List.length_cons] at hw
      omega

/-- Witness for C7: the panic branch at `i = 1 < j = 2` and the short
witness branch at `i = j = 2` with an empty witness. -/
theorem C7_verifier_guards_witness :
    ((1 : Nat) < 2 ∧
      verify H0 zeroDigest 1 2 [] d1 = .panicked) ∧
    ((2 : Nat) ≤ 2 ∧ ([] : List Digest).length < 3 ∧
      verify H0 zeroDigest 2 2 [] d1 = .err .witnessTooShort) :=
  ⟨⟨by decide,
    (C7_verifier_guards H0 zeroDigest 1 2 [] d1).1 (by decide)⟩,
   ⟨by decide, by decide,
    (C7_verifier_guards H0 zeroDigest 2 2 [] d1).2 (by decide)
      (by decide)⟩⟩

set_option maxRecDepth 20000 in
/-- C8 counterexample: on the eight-element history, `prove_from(8, 1)`
succeeds with a witness of length 21, which exceeds the claimed bound
`3 * (floor(log2 8) + popcount 8 + 1) = 15` (the deterministic path is
8 → 7 → 6 → 4 → 3 → 2 → 1, seven triples). -/
theorem C8_counterexample :
    witnessLengthOf (prove_from (runProver H0 c8xs) 8 1) = some 21 ∧
    ¬ (21 ≤ 3 * (flog2 8 + popcount 8 + 1)) := by decide

/-- C8 amended: for every history and all `1 ≤ j ≤ i ≤ k`, the witness
returned by `prove_from(i, j)` has length a multiple of 3 (one triple per
step of the deterministic path), bounded by `3 * (i - j + 1)`; the
logarithmic bound of the claim does not hold (the path may revisit a
bit-clearing descent after each step to `i - 1`, giving a worst case
quadratic in `log i`). -/
theorem C8_amended (H : Hash) (xs : List Digest) (i j : Nat)
    (hlen : xs.length < 2 ^ 256) (hj : 1 ≤ j) (hji : j ≤ i)
    (hik : i ≤ xs.length) :
    ∃ w, prove_from (runProver H xs) i j = .ok w ∧
      w.length % 3 = 0 ∧ w.length ≤ 3 * (i - j + 1) := by
  obtain ⟨xj, hxj⟩ := get?_some_of_lt (show j - 1 < xs.length by omega)
  obtain ⟨w, hp, h3, hB, _⟩ :=
    prove_verify_spec H xs hlen i j xj hj hji hik hxj
  exact ⟨w, hp (i + 1) (by omega), h3, hB⟩

set_option maxRecDepth 8000 in
/-- Witness for C8 amended at `H0`, `xs = [d1]`, `i = j = 1`. -/
theorem C8_amended_witness :
    ([d1] : List Digest).length < 2 ^ 256 ∧ (1 : Nat) ≤ 1 ∧
    (1 : Nat) ≤ 1 ∧ 1 ≤ ([d1] : List Digest).length ∧
    (∃ w, prove_from (runProver H0 [d1]) 1 1 = .ok w ∧
      w.length % 3 = 0 ∧ w.length ≤ 3 * (1 - 1 + 1)) :=
  ⟨by decide, by decide, by decide, by decide,
    C8_amended H0 [d1] 1 1 (by decide) (by decide) (by decide)
      (by decide)⟩

/-- C9: Mutation invariant.  Each `insert` increments the length counter by
exactly 1 (and it is the only mutating operation, so `k` never decreases
across runs: extending a history never shrinks `k`).  After any run, the
prover element and root maps each hold exactly `k + 1` entries with key
set `{0, 1, …, k}`, index 0 mapping to the zero digest placed at
construction. -/
theorem C9_mutation_invariant (H : Hash) (P : SimpleProver) (x : Digest)
    (xs ys : List Digest) :
    (P.insert H x).1.accumulator.k = P.accumulator.k + 1 ∧
    (runProver H xs).accumulator.k ≤
      (runProver H (xs ++ ys)).accumulator.k ∧
    (runProver H xs).elements.length = xs.length + 1 ∧
    (runProver H xs).r.length = xs.length + 1 ∧
    (runProver H xs).elements.map Prod.fst = List.range (xs.length + 1) ∧
    (runProver H xs).r.map Prod.fst = List.range (xs.length + 1) ∧
    mapGet (runProver H xs).elements 0 = some zeroDigest ∧
    mapGet (runProver H xs).r 0 = some zeroDigest := by
  have he := runProver_ekeys H xs
  have hr := runProver_rkeys H xs
  have h0 := runProver_map_zero H xs
  refine ⟨rfl, ?_, ?_, ?_, he, hr, h0.1, h0.2⟩
  · rw [runProver_klen, runProver_klen]
    simp
  · have h2 := congrArg List.length he
    simpa using h2
  · have h2 := congrArg List.length hr
    simpa using h2

/-- C10: `is_empty()` always returns false: it tests emptiness of the
backing state slice, which is a fixed 256-slot array on every reachable
accumulator and prover state, including the freshly constructed one. -/
theorem C10_is_empty_false (H : Hash) (xs : List Digest) :
    is_empty (runAccumulator H xs) = false ∧
    is_empty (runProver H xs).accumulator = false ∧
    is_empty SimpleAccumulator.default = false := by
  refine ⟨?_, ?_, rfl⟩
  · exact isEmpty_false_of_length (runAccumulator_slen H xs)
  · exact isEmpty_false_of_length (runProver_slen H xs)

end Accum
